import Mathlib

/-!
Verification of the `autoenum` resolution engine (src/autoenum.py).

The Python module defines `AutoEnum(str, Enum)`: an enumeration base class whose
members can carry alias lists (via the `alias` helper), with a lazily built,
per-class lookup table `_value2member_map_normalized_` mapping normalized
strings to members, the resolver `from_str`, derived queries (`matches_any`),
and container-conversion helpers (`convert_keys`, `convert_keys_to_str`).

Shallow embedding conventions used below:
- A member (variant) is a `MemberDef`: its declared `name` and its declared
  `aliases` list (empty for plain `auto()` members).  For an alias member the
  Python `value` string is `str(alias(...)) = "alias:" ++ repr(list_of_aliases)`
  (the `str` mixin turns the `alias` object into its string form at class
  creation); this is `memValue` below.
- Python dicts are association lists with Python's update semantics:
  assigning to an existing key replaces the value in place, keeping the key's
  position; assigning to a fresh key appends.  (`pyInsert` / `pyLookup`.)
- `from_str` inputs are `PyVal`: strings, `None`, ints (standing for arbitrary
  non-string objects; Python `str()` of an int is its decimal form), or enum
  members (which ARE `str` instances, since `AutoEnum` subclasses `str`).
- The class-level cached table is threaded explicitly: `fromStrState` takes and
  returns the `Option Table` cache exactly as `_initialize_lookup` reads and
  writes `cls.__dict__`.
-/

namespace AutoEnumPy

/-- Codepoints deleted by `_DEFAULT_REMOVAL_TABLE`: the third argument
`' -_.:;,'` of `str.maketrans` (space, hyphen, underscore, period, colon,
semicolon, comma). -/
def removalCodes : List Nat := [32, 45, 95, 46, 58, 59, 44]

/-- One character step of `str.translate(_DEFAULT_REMOVAL_TABLE)`: uppercase
ASCII `A`-`Z` (codes 65-90) maps to its lowercase counterpart (code + 32),
the removal characters are deleted, everything else passes through. -/
def normChar (c : Char) : Option Char :=
  if 65 ≤ c.toNat ∧ c.toNat ≤ 90 then some (Char.ofNat (c.toNat + 32))
  else if c.toNat ∈ removalCodes then none
  else some c

/-- `AutoEnum._normalize`: `str(x).translate(_DEFAULT_REMOVAL_TABLE)`.
(The `str(x)` coercion is applied by the callers of `normalizeStr` through
`pyToStr` where the input is not already a string.) -/
def normalizeStr (s : String) : String :=
  ⟨s.data.filterMap normChar⟩

/-- One declared enumeration member: its name and its declared alias list
(`aliases = []` for members declared with plain `auto()`). -/
structure MemberDef where
  name : String
  aliases : List String
deriving DecidableEq

/-- Single-quote character (code 39), double quote (34), backslash (92). -/
def squoteChar : Char := Char.ofNat 39

/-- Double-quote character (code 34). -/
def dquoteChar : Char := Char.ofNat 34

/-- Backslash character (code 92). -/
def backslashChar : Char := Char.ofNat 92

/-- Escaping of one character inside a Python `repr` string literal delimited
by quote `q`: backslash and the delimiter are escaped, everything else is kept.
(Control-character escapes are not modeled; no string in this development
contains control characters.) -/
def pyEscChar (q : Char) (c : Char) : List Char :=
  if c = backslashChar then [backslashChar, backslashChar]
  else if c = q then [backslashChar, q]
  else [c]

/-- Python `repr` of a string: single-quoted, except double-quoted when the
string contains a single quote and no double quote. -/
def pyStrRepr (s : String) : String :=
  let q := if s.data.contains squoteChar ∧ ¬ s.data.contains dquoteChar
           then dquoteChar else squoteChar
  ⟨q :: (s.data.map (pyEscChar q)).flatten ++ [q]⟩

/-- Python `str`/`repr` of a list of strings: `[` + comma-space separated
`repr`s + `]`. -/
def pyListRepr (xs : List String) : String :=
  "[" ++ String.intercalate ", " (xs.map pyStrRepr) ++ "]"

/-- The Python `value` of a member.  `_generate_next_value_` returns the name,
so plain members have `value = name`; members declared as `alias(...)` get
`value = str(alias_instance) = "alias:" ++ str(list(names))` because the `str`
mixin of `AutoEnum(str, Enum)` stringifies the `alias` object.  (Python member
names are identifiers, so a plain member's value never begins with `"alias:"`.) -/
def memValue (v : MemberDef) : String :=
  if v.aliases.isEmpty then v.name else "alias:" ++ pyListRepr v.aliases

/-- `list.startswith`-style test on the underlying character lists
(models Python `str.startswith`). -/
def listStarts [DecidableEq α] : List α → List α → Bool
  | _, [] => true
  | [], _ :: _ => false
  | a :: s, b :: p => a = b ∧ listStarts s p

/-- Models Python `str.startswith`. -/
def strStarts (s pre : String) : Bool := listStarts s.data pre.data

/-- Python dict lookup (`d.get(k)`). -/
def pyLookup [DecidableEq K] : List (K × V) → K → Option V
  | [], _ => none
  | (k', v) :: rest, k => if k = k' then some v else pyLookup rest k

/-- Python dict assignment `d[k] = v`: replace the value in place if an equal
key exists (the original key object is kept), otherwise append. -/
def pyInsert [DecidableEq K] : List (K × V) → K → V → List (K × V)
  | [], k, v => [(k, v)]
  | (k', v') :: rest, k, v =>
      if k = k' then (k', v) :: rest else (k', v') :: pyInsert rest k v

/-- The per-class lookup table `_value2member_map_normalized_`. -/
abbrev Table := List (String × MemberDef)

/-- The build error raised by `_initialize_lookup` (a `ValueError` in Python:
"Cannot register enum ...; another enum with the same normalized name ...
already exists") carrying the offending name (or alias string) and the
normalized key. -/
inductive BuildErr where
  | collision : String → String → BuildErr
deriving DecidableEq

/-- The inner loop of `_initialize_lookup` over `e_names`
(= `literal_eval(e.value.removeprefix(...))`, which recovers exactly the
declared alias list since `literal_eval` inverts `repr`): skip an alias that
normalizes like the member's own name, raise on a key already present,
otherwise insert. -/
def processAliasList (v : MemberDef) : List String → Table → Table × Option BuildErr
  | [], m => (m, none)
  | a :: rest, m =>
      if normalizeStr a = normalizeStr v.name then
        processAliasList v rest m
      else if (pyLookup m (normalizeStr a)).isSome then
        (m, some (BuildErr.collision a (normalizeStr a)))
      else
        processAliasList v rest (pyInsert m (normalizeStr a) v)

/-- Processing of one member `e` inside `_initialize_lookup`: check and insert
the normalized name; then, if `e.value` starts with `"alias:"`, insert the
normalized composite value string (NO collision check in the source, line 94)
and process the alias list. -/
def processMember (v : MemberDef) (m : Table) : Table × Option BuildErr :=
  if (pyLookup m (normalizeStr v.name)).isSome then
    (m, some (BuildErr.collision v.name (normalizeStr v.name)))
  else
    let m1 := pyInsert m (normalizeStr v.name) v
    if strStarts (memValue v) "alias:" then
      processAliasList v v.aliases (pyInsert m1 (normalizeStr (memValue v)) v)
    else
      (m1, none)

/-- The member loop of `_initialize_lookup`.  The returned table is the dict
contents at the moment the loop finishes or the exception is raised (Python
leaves the partially filled dict on the class in the latter case). -/
def buildRun : List MemberDef → Table → Table × Option BuildErr
  | [], m => (m, none)
  | v :: rest, m =>
      match processMember v m with
      | (m1, none) => buildRun rest m1
      | (m1, some e) => (m1, some e)

/-- The overall result of a fresh `_initialize_lookup` run: the finished table,
or the collision error. -/
def buildOutcome (defs : List MemberDef) : Except BuildErr Table :=
  match buildRun defs [] with
  | (t, none) => Except.ok t
  | (_, some e) => Except.error e

/-- `_initialize_lookup` with the class-level cache made explicit: if
`_value2member_map_normalized_` is already in `cls.__dict__` nothing happens;
otherwise the table is built, and it is cached EVEN IF the build raises
(the attribute is assigned at line 83, before the loop runs). -/
def initLookup (defs : List MemberDef) : Option Table → Table × Option BuildErr
  | some t => (t, none)
  | none => buildRun defs []

/-- Inputs to `from_str` and the conversion helpers. -/
inductive PyVal where
  | vstr : String → PyVal
  | vnone : PyVal
  | vint : Int → PyVal
  | vmem : MemberDef → PyVal
deriving DecidableEq

/-- Python `str(x)`: identity on strings, `"None"` for `None`, decimal form
for ints, and the member's `__str__` (its `name`) for enum members. -/
def pyToStr : PyVal → String
  | PyVal.vstr s => s
  | PyVal.vnone => "None"
  | PyVal.vint n => toString n
  | PyVal.vmem m => m.name

/-- `isinstance(x, str)`: true for strings and for enum members (every
`AutoEnum` member is a `str` instance). -/
def pyIsStr : PyVal → Bool
  | PyVal.vstr _ => true
  | PyVal.vnone => false
  | PyVal.vint _ => false
  | PyVal.vmem _ => true

/-- `isinstance(x, cls)` for the enumeration class defined by `defs`:
only this class's members qualify. -/
def instanceCheck (defs : List MemberDef) : PyVal → Option MemberDef
  | PyVal.vmem m => if m ∈ defs then some m else none
  | _ => none

/-- Errors `from_str` can raise: the type mismatch of line 121, the miss of
line 125, and a collision propagating out of `_initialize_lookup`. -/
inductive RunErr where
  | typeMismatch : RunErr
  | notFound : RunErr
  | buildFailed : BuildErr → RunErr
deriving DecidableEq

/-- `AutoEnum.from_str`, with the lookup table already built and passed in
(the pure core used by every resolution claim; `fromStrState` below threads
the lazy cache).  Returns `ok (some m)` for a hit, `ok none` for the silent
miss, `error` where Python raises. -/
def fromStr (defs : List MemberDef) (t : Table) (v : PyVal) (raiseError : Bool) :
    Except RunErr (Option MemberDef) :=
  match instanceCheck defs v with
  | some m => Except.ok (some m)
  | none =>
      if v = PyVal.vnone ∧ raiseError = false then Except.ok none
      else if pyIsStr v = false ∧ raiseError = true then Except.error RunErr.typeMismatch
      else
        match pyLookup t (normalizeStr (pyToStr v)) with
        | some m => Except.ok (some m)
        | none => if raiseError then Except.error RunErr.notFound else Except.ok none

/-- The value `from_str(v, raise_error=False)` returns (that call never
raises; `fromStr_false` below proves the two definitions agree). -/
def fromStrOpt (defs : List MemberDef) (t : Table) (v : PyVal) : Option MemberDef :=
  match instanceCheck defs v with
  | some m => some m
  | none =>
      if v = PyVal.vnone then none
      else pyLookup t (normalizeStr (pyToStr v))

/-- `AutoEnum.from_str` with the class-level cache threaded explicitly.
The instance / `None` / type checks run before `_initialize_lookup`; the
cache is written (even to a partial table) whenever the build runs. -/
def fromStrState (defs : List MemberDef) (cache : Option Table) (v : PyVal)
    (raiseError : Bool) : Option Table × Except RunErr (Option MemberDef) :=
  match instanceCheck defs v with
  | some m => (cache, Except.ok (some m))
  | none =>
      if v = PyVal.vnone ∧ raiseError = false then (cache, Except.ok none)
      else if pyIsStr v = false ∧ raiseError = true then
        (cache, Except.error RunErr.typeMismatch)
      else
        match initLookup defs cache with
        | (t, some e) => (some t, Except.error (RunErr.buildFailed e))
        | (t, none) =>
            match pyLookup t (normalizeStr (pyToStr v)) with
            | some m => (some t, Except.ok (some m))
            | none =>
                if raiseError then (some t, Except.error RunErr.notFound)
                else (some t, Except.ok none)

/-- `AutoEnum.matches_any`: `cls.from_str(enum_value, raise_error=False) is not None`. -/
def matchesAny (defs : List MemberDef) (t : Table) (v : PyVal) : Bool :=
  match fromStr defs t v false with
  | Except.ok r => r.isSome
  | Except.error _ => false

/-- Dict keys for the key-conversion helpers: strings, members of some
`AutoEnum` class (which are also `str` instances), or ints (standing for
non-string keys). -/
inductive PyKey where
  | kstr : String → PyKey
  | kmem : MemberDef → PyKey
  | kint : Int → PyKey
deriving DecidableEq

/-- The `PyVal` a key denotes when fed to `isinstance`/`from_str`. -/
def keyToVal : PyKey → PyVal
  | PyKey.kstr s => PyVal.vstr s
  | PyKey.kmem m => PyVal.vmem m
  | PyKey.kint n => PyVal.vint n

/-- The key `convert_keys` stores for an input key: if the key is a string
(`isinstance(k, str)`) and `from_str(k, raise_error=False)` hits, the resolved
member; otherwise the key unchanged. -/
def keyConv (defs : List MemberDef) (t : Table) (k : PyKey) : PyKey :=
  if pyIsStr (keyToVal k) = true then
    match fromStrOpt defs t (keyToVal k) with
    | some m => PyKey.kmem m
    | none => k
  else k

/-- `AutoEnum.convert_keys`: rebuild the dict, replacing matching string keys
by the resolved member. -/
def convertKeys (defs : List MemberDef) (t : Table) (d : List (PyKey × V)) :
    List (PyKey × V) :=
  d.foldl (fun out kv => pyInsert out (keyConv defs t kv.1) kv.2) []

/-- The key `convert_keys_to_str` stores: a member of this class becomes
`str(k)` (its `name`); everything else is unchanged. -/
def keyToStrConv (defs : List MemberDef) (k : PyKey) : PyKey :=
  match k with
  | PyKey.kmem m => if m ∈ defs then PyKey.kstr m.name else k
  | _ => k

/-- `AutoEnum.convert_keys_to_str`. -/
def convertKeysToStr (defs : List MemberDef) (d : List (PyKey × V)) :
    List (PyKey × V) :=
  d.foldl (fun out kv => pyInsert out (keyToStrConv defs kv.1) kv.2) []

/-- The normalized key of a member's canonical name. -/
def nameKey (v : MemberDef) : String := normalizeStr v.name

/-- All normalized name/alias keys a member contributes (the composite
alias-list value key is separate: `normalizeStr (memValue v)`). -/
def memberKeys (v : MemberDef) : List String :=
  nameKey v :: v.aliases.map normalizeStr

/-- Identity of an enumeration class: the `cid` separates distinct class
objects (Python identity); `className` is `cls.__name__`, which need not be
unique across classes. -/
structure EnumClassId where
  cid : Nat
  className : String
deriving DecidableEq

/-- The string hashed by `AutoEnum.__hash__`:
`self.__class__.__name__ + '.' + self.name`.  Equal hash-key strings give
equal Python hashes. -/
def hashKeyOf (c : EnumClassId) (n : String) : String :=
  c.className ++ "." ++ n

/-- `AutoEnum.__eq__` between a variant of class `c1` named `n1` and a variant
of class `c2` named `n2`: Python `is`, i.e. the same class object and the same
member. -/
def variantIs (c1 : EnumClassId) (n1 : String) (c2 : EnumClassId) (n2 : String) : Bool :=
  c1 = c2 ∧ n1 = n2

/-! Concrete enumeration definitions used by counterexamples and witnesses. -/

/-- `class Ex(AutoEnum): FIRST = alias("alias:['x']")` - a member whose single
alias string happens to have the literal shape of an alias-list value. -/
def exFirst : MemberDef := ⟨"FIRST", ["alias:['x']"]⟩

/-- `SECOND = alias('x')`, declared after `exFirst` in the same class; its
composite value key `normalizeStr "alias:['x']"` equals the normalized form of
`exFirst`'s declared alias. -/
def exSecond : MemberDef := ⟨"SECOND", ["x"]⟩

/-- The two-member class whose table build silently overwrites a key. -/
def exOverlapDefs : List MemberDef := [exFirst, exSecond]

/-- The table the build produces for `exOverlapDefs` (the build succeeds). -/
def exOverlapTable : Table := (buildOutcome exOverlapDefs).toOption.getD []

/-- The table contents right after `exFirst` is processed. -/
def exAfterFirst : Table := (processMember exFirst []).1

/-- `class C(AutoEnum): A_B = auto(); AB = auto()` - two names normalizing to
the same key `"ab"`. -/
def collideDefs : List MemberDef := [⟨"A_B", []⟩, ⟨"AB", []⟩]

/-- `class N(AutoEnum): NUM = alias('123')` - an alias equal to the decimal
form of an integer. -/
def numDefs : List MemberDef := [⟨"NUM", ["123"]⟩]

/-- The built table of `numDefs`. -/
def numTable : Table := (buildOutcome numDefs).toOption.getD []

/-- `class Color(AutoEnum): RED = alias('crimson'); BLUE = auto()`. -/
def colorDefs : List MemberDef := [⟨"RED", ["crimson"]⟩, ⟨"BLUE", []⟩]

/-- The built table of `colorDefs`. -/
def colorTable : Table := (buildOutcome colorDefs).toOption.getD []

/-- `class D(AutoEnum): DATA_TYPE = auto()`. -/
def dataDefs : List MemberDef := [⟨"DATA_TYPE", []⟩]

/-- The built table of `dataDefs`. -/
def dataTable : Table := (buildOutcome dataDefs).toOption.getD []

/-- A dict with two distinct string keys that both resolve to `DATA_TYPE`. -/
def c10Dict : List (PyKey × Nat) :=
  [(PyKey.kstr "data_type", 1), (PyKey.kstr "DATA-TYPE", 2)]

/-- A dict with one canonical-name key and one non-string key: round-trips. -/
def c9Dict : List (PyKey × Nat) :=
  [(PyKey.kstr "DATA_TYPE", 1), (PyKey.kint 7, 2)]

/-- Two DISTINCT enumeration classes that happen to share the class name
`"Color"` (e.g. defined in two different modules). -/
def clsA : EnumClassId := ⟨0, "Color"⟩

/-- The second class named `"Color"`. -/
def clsB : EnumClassId := ⟨1, "Color"⟩

/-- Key-presence in a dict (Python `k in d`); proof-side shorthand for the
`.isSome` membership tests the source performs. -/
def hasKey [DecidableEq K] (m : List (K × V)) (k : K) : Prop :=
  (pyLookup m k).isSome = true

/-! Theorems. -/

theorem pyLookup_pyInsert [DecidableEq K] :
    ∀ (m : List (K × V)) (k k' : K) (v : V),
    pyLookup (pyInsert m k v) k' = if k' = k then some v else pyLookup m k'
  | [], k, k', v => by simp [pyInsert, pyLookup]
  | (k0, v0) :: rest, k, k', v => by
    by_cases h1 : k = k0
    · subst h1
      simp only [pyInsert, if_pos rfl, pyLookup]
      by_cases h2 : k' = k <;> simp [h2]
    · simp only [pyInsert, if_neg h1, pyLookup]
      by_cases h2 : k' = k0
      · subst h2
        rw [if_pos rfl, if_neg (fun h => h1 h.symm), if_pos rfl]
      · rw [if_neg h2, if_neg h2, pyLookup_pyInsert rest k k' v]

theorem pyInsert_of_none [DecidableEq K] :
    ∀ (m : List (K × V)) (k : K) (v : V), pyLookup m k = none →
    pyInsert m k v = m ++ [(k, v)]
  | [], k, v, _ => rfl
  | (k0, v0) :: rest, k, v, h => by
    simp only [pyLookup] at h
    by_cases h1 : k = k0
    · rw [if_pos h1] at h; exact absurd h (by simp)
    · rw [if_neg h1] at h
      simp only [pyInsert, if_neg h1, List.cons_append]
      rw [pyInsert_of_none rest k v h]

theorem pyLookup_append_none [DecidableEq K] :
    ∀ (m1 m2 : List (K × V)) (k : K), pyLookup m1 k = none →
    pyLookup (m1 ++ m2) k = pyLookup m2 k
  | [], _, _, _ => rfl
  | (k0, v0) :: rest, m2, k, h => by
    simp only [pyLookup] at h ⊢
    by_cases h1 : k = k0
    · rw [if_pos h1] at h; exact absurd h (by simp)
    · rw [if_neg h1] at h ⊢
      exact pyLookup_append_none rest m2 k h

theorem hasKey_pyInsert [DecidableEq K] {m : List (K × V)} {k : K} (k' : K) (v : V)
    (h : hasKey m k) : hasKey (pyInsert m k' v) k := by
  unfold hasKey at h ⊢
  rw [pyLookup_pyInsert]
  by_cases h1 : k = k' <;> simp [h1, h]

theorem hasKey_pyInsert_self [DecidableEq K] (m : List (K × V)) (k : K) (v : V) :
    hasKey (pyInsert m k v) k := by
  unfold hasKey
  rw [pyLookup_pyInsert]
  simp

theorem pyLookup_pyInsert_of_ne [DecidableEq K] (m : List (K × V)) {k k' : K} (v : V)
    (h : k' ≠ k) : pyLookup (pyInsert m k v) k' = pyLookup m k' := by
  rw [pyLookup_pyInsert, if_neg h]

/-- Characters produced by the normalizer are fixed by it: a translated
character is lowercase (outside `A`-`Z`) and not a removal character, and a
passed-through character still fails both tests. -/
theorem normChar_fix {c c' : Char} (h : normChar c = some c') : normChar c' = some c' := by
  unfold normChar at h ⊢
  by_cases h1 : 65 ≤ c.toNat ∧ c.toNat ≤ 90
  · rw [if_pos h1] at h
    injection h with h
    subst h
    have hv : (c.toNat + 32).isValidChar := Or.inl (by omega)
    have ht : (Char.ofNat (c.toNat + 32)).toNat = c.toNat + 32 := by
      simp only [Char.ofNat, hv, dif_pos]
      simp [Char.ofNatAux, Char.toNat, UInt32.toNat]
    rw [if_neg (by omega), if_neg (by simp [removalCodes, ht]; omega)]
  · rw [if_neg h1] at h
    by_cases h2 : c.toNat ∈ removalCodes
    · rw [if_pos h2] at h; exact absurd h (by simp)
    · rw [if_neg h2] at h
      injection h with h
      subst h
      rw [if_neg h1, if_neg h2]

theorem filterMap_normChar_idem : ∀ l : List Char,
    (l.filterMap normChar).filterMap normChar = l.filterMap normChar := by
  intro l
  induction l with
  | nil => rfl
  | cons c rest ih =>
    cases h : normChar c with
    | none => simp [List.filterMap_cons, h, ih]
    | some c' => simp [List.filterMap_cons, h, normChar_fix h, ih]

/-- Claim C4: the normalizer is idempotent - `normalize(normalize(s)) ==
normalize(s)` for every string `s`, where `normalize` lowercases ASCII `A`-`Z`,
deletes space, hyphen, underscore, period, colon, semicolon and comma, and
passes every other character through (`_normalize` with
`_DEFAULT_REMOVAL_TABLE`). -/
theorem c4_normalize_idempotent (s : String) :
    normalizeStr (normalizeStr s) = normalizeStr s :=
  congrArg String.mk (filterMap_normChar_idem s.data)

/-! Build-loop lemmas: key-set monotonicity, establishment of a member's keys,
and detection of keys already present. -/

theorem processAliasList_mono {v : MemberDef} {k : String} :
    ∀ (as : List String) (m m' : Table) (e : Option BuildErr),
    processAliasList v as m = (m', e) → hasKey m k → hasKey m' k
  | [], m, m', e, h, hk => by
    simp only [processAliasList] at h
    obtain ⟨rfl, rfl⟩ := Prod.mk.injEq .. ▸ h
    exact hk
  | a :: rest, m, m', e, h, hk => by
    simp only [processAliasList] at h
    by_cases h1 : normalizeStr a = normalizeStr v.name
    · rw [if_pos h1] at h
      exact processAliasList_mono rest m m' e h hk
    · rw [if_neg h1] at h
      by_cases h2 : (pyLookup m (normalizeStr a)).isSome
      · rw [if_pos h2] at h
        obtain ⟨rfl, rfl⟩ := Prod.mk.injEq .. ▸ h
        exact hk
      · rw [if_neg h2] at h
        exact processAliasList_mono rest _ m' e h (hasKey_pyInsert _ _ hk)

theorem processMember_mono {v : MemberDef} {m m' : Table} {e : Option BuildErr} {k : String}
    (h : processMember v m = (m', e)) (hk : hasKey m k) : hasKey m' k := by
  unfold processMember at h
  by_cases h1 : (pyLookup m (normalizeStr v.name)).isSome
  · rw [if_pos h1] at h
    obtain ⟨rfl, rfl⟩ := Prod.mk.injEq .. ▸ h
    exact hk
  · rw [if_neg h1] at h
    simp only at h
    by_cases h2 : strStarts (memValue v) "alias:"
    · rw [if_pos h2] at h
      exact processAliasList_mono v.aliases _ m' e h
        (hasKey_pyInsert _ _ (hasKey_pyInsert _ _ hk))
    · rw [if_neg h2] at h
      obtain ⟨rfl, rfl⟩ := Prod.mk.injEq .. ▸ h
      exact hasKey_pyInsert _ _ hk

theorem buildRun_mono {k : String} :
    ∀ (defs : List MemberDef) (m m' : Table) (e : Option BuildErr),
    buildRun defs m = (m', e) → hasKey m k → hasKey m' k
  | [], m, m', e, h, hk => by
    simp only [buildRun] at h
    obtain ⟨rfl, rfl⟩ := Prod.mk.injEq .. ▸ h
    exact hk
  | v :: rest, m, m', e, h, hk => by
    simp only [buildRun] at h
    rcases hp : processMember v m with ⟨m1, e1⟩
    rw [hp] at h
    match e1, h with
    | none, h => exact buildRun_mono rest m1 m' e h (processMember_mono hp hk)
    | some e1, h =>
      obtain ⟨rfl, rfl⟩ := Prod.mk.injEq .. ▸ h
      exact processMember_mono hp hk

/-- A successful alias pass leaves every alias key present, provided the
member's own name key is already present (skipped aliases normalize to it). -/
theorem processAliasList_estab {v : MemberDef} :
    ∀ (as : List String) (m m' : Table),
    processAliasList v as m = (m', none) → hasKey m (nameKey v) →
    ∀ a ∈ as, hasKey m' (normalizeStr a)
  | [], m, m', h, _, a, ha => absurd ha (List.not_mem_nil a)
  | a0 :: rest, m, m', h, hname, a, ha => by
    simp only [processAliasList] at h
    by_cases h1 : normalizeStr a0 = normalizeStr v.name
    · rw [if_pos h1] at h
      rcases List.mem_cons.mp ha with rfl | ha'
      · rw [h1]
        exact processAliasList_mono rest m m' none h hname
      · exact processAliasList_estab rest m m' h hname a ha'
    · rw [if_neg h1] at h
      by_cases h2 : (pyLookup m (normalizeStr a0)).isSome
      · rw [if_pos h2] at h
        exact absurd (congrArg Prod.snd h) (by simp)
      · rw [if_neg h2] at h
        rcases List.mem_cons.mp ha with rfl | ha'
        · exact processAliasList_mono rest _ m' none h (hasKey_pyInsert_self _ _ _)
        · exact processAliasList_estab rest _ m' h
            (hasKey_pyInsert _ _ hname) a ha'

/-- If an alias list is non-empty, the member's value string starts with
`"alias:"`. -/
theorem strStarts_alias (v : MemberDef) (hne : ¬ v.aliases.isEmpty) :
    strStarts (memValue v) "alias:" = true := by
  unfold memValue
  rw [if_neg hne]
  show listStarts ("alias:" ++ pyListRepr v.aliases).data ("alias:").data = true
  rw [String.data_append]
  have : ∀ (p t : List Char), listStarts (p ++ t) p = true := by
    intro p
    induction p with
    | nil => intro t; cases t <;> rfl
    | cons c p ih => intro t; simpa [listStarts] using ih t
  exact this _ _

/-- A successful member pass leaves all the member's name/alias keys present. -/
theorem processMember_estab {v : MemberDef} {m m' : Table}
    (h : processMember v m = (m', none)) :
    ∀ k ∈ memberKeys v, hasKey m' k := by
  intro k hk
  unfold processMember at h
  by_cases h1 : (pyLookup m (normalizeStr v.name)).isSome
  · rw [if_pos h1] at h
    exact absurd (congrArg Prod.snd h) (by simp)
  · rw [if_neg h1] at h
    simp only at h
    rcases List.mem_cons.mp hk with rfl | hk'
    · -- the name key
      by_cases h2 : strStarts (memValue v) "alias:"
      · rw [if_pos h2] at h
        exact processAliasList_mono v.aliases _ m' none h
          (hasKey_pyInsert _ _ (hasKey_pyInsert_self _ _ _))
      · rw [if_neg h2] at h
        obtain ⟨rfl, _⟩ := Prod.mk.injEq .. ▸ h
        exact hasKey_pyInsert_self _ _ _
    · -- an alias key
      obtain ⟨a, ha, rfl⟩ := List.mem_map.mp hk'
      have hne : ¬ v.aliases.isEmpty := by
        intro hemp
        rw [List.isEmpty_iff.mp hemp] at ha
        exact List.not_mem_nil a ha
      rw [if_pos (strStarts_alias v hne)] at h
      exact processAliasList_estab v.aliases _ m' h
        (hasKey_pyInsert _ _ (hasKey_pyInsert_self _ _ _)) a ha

/-- If some (non-redundant) alias of `v` normalizes to a key already present,
the alias pass raises. -/
theorem processAliasList_err {v : MemberDef} {k : String} :
    ∀ (as : List String) (m : Table), hasKey m k →
    (∃ a ∈ as, normalizeStr a = k) → k ≠ normalizeStr v.name →
    (processAliasList v as m).2.isSome = true
  | [], m, _, ⟨a, ha, _⟩, _ => absurd ha (List.not_mem_nil a)
  | a0 :: rest, m, hk, ⟨a, ha, hak⟩, hkn => by
    simp only [processAliasList]
    by_cases h1 : normalizeStr a0 = normalizeStr v.name
    · rw [if_pos h1]
      rcases List.mem_cons.mp ha with rfl | ha'
      · exact absurd (hak ▸ h1) hkn
      · exact processAliasList_err rest m hk ⟨a, ha', hak⟩ hkn
    · rw [if_neg h1]
      rcases List.mem_cons.mp ha with rfl | ha'
      · rw [hak, if_pos (show (pyLookup m k).isSome = true from hk)]
        rfl
      · by_cases h2 : (pyLookup m (normalizeStr a0)).isSome
        · rw [if_pos h2]
          rfl
        · rw [if_neg h2]
          exact processAliasList_err rest _ (hasKey_pyInsert _ _ hk) ⟨a, ha', hak⟩ hkn

/-- If any name/alias key of `v` is already present when `v` is processed,
`processMember` raises. -/
theorem processMember_err {v : MemberDef} {m : Table} {k : String}
    (hmem : k ∈ memberKeys v) (hk : hasKey m k) :
    (processMember v m).2.isSome = true := by
  unfold processMember
  by_cases hname : k = normalizeStr v.name
  · rw [if_pos (show (pyLookup m (normalizeStr v.name)).isSome = true from hname ▸ hk)]
    rfl
  · rcases List.mem_cons.mp hmem with rfl | hmem'
    · exact absurd rfl hname
    · obtain ⟨a, ha, rfl⟩ := List.mem_map.mp hmem'
      by_cases h1 : (pyLookup m (normalizeStr v.name)).isSome
      · rw [if_pos h1]
        rfl
      · rw [if_neg h1]
        simp only
        have hne : ¬ v.aliases.isEmpty := by
          intro hemp
          rw [List.isEmpty_iff.mp hemp] at ha
          exact List.not_mem_nil a ha
        rw [if_pos (strStarts_alias v hne)]
        exact processAliasList_err v.aliases _
          (hasKey_pyInsert _ _ (hasKey_pyInsert _ _ hk)) ⟨a, ha, rfl⟩ hname

/-- If some member of `rest` owns a name/alias key already present in the
table, the remaining build raises. -/
theorem buildRun_err {w : MemberDef} {k : String} :
    ∀ (rest : List MemberDef) (m : Table), w ∈ rest → k ∈ memberKeys w →
    hasKey m k → (buildRun rest m).2.isSome = true
  | [], m, hw, _, _ => absurd hw (List.not_mem_nil w)
  | u :: rest, m, hw, hkw, hk => by
    simp only [buildRun]
    rcases hp : processMember u m with ⟨m1, e1⟩
    rcases List.mem_cons.mp hw with rfl | hw'
    · have := processMember_err hkw hk
      rw [hp] at this
      simp only at this
      match e1, this with
      | some e1, _ => rfl
    · match e1 with
      | some e1 => rfl
      | none => exact buildRun_err rest m1 hw' hkw (processMember_mono hp hk)

/-- `buildRun` over an appended list runs the halves in sequence, stopping at
the first error. -/
theorem buildRun_append :
    ∀ (xs ys : List MemberDef) (m : Table),
    buildRun (xs ++ ys) m =
      match buildRun xs m with
      | (m1, none) => buildRun ys m1
      | (m1, some e) => (m1, some e)
  | [], ys, m => by simp [buildRun]
  | v :: xs, ys, m => by
    simp only [List.cons_append, buildRun]
    rcases hp : processMember v m with ⟨m1, e1⟩
    match e1 with
    | none => exact buildRun_append xs ys m1
    | some e1 => rfl

/-- If `v` comes before `w` in the member list and they share a normalized
name/alias key, the build raises. -/
theorem collide_err_aux {v w : MemberDef} {k : String}
    (hkv : k ∈ memberKeys v) (hkw : k ∈ memberKeys w) :
    ∀ (l1 l2 : List MemberDef) (m : Table), w ∈ l2 →
    (buildRun (l1 ++ v :: l2) m).2.isSome = true := by
  intro l1 l2 m hw
  rw [buildRun_append]
  rcases h1 : buildRun l1 m with ⟨m1, e1⟩
  match e1 with
  | some e1 => rfl
  | none =>
    simp only [buildRun]
    rcases hp : processMember v m1 with ⟨m2, e2⟩
    match e2 with
    | some e2 => rfl
    | none => exact buildRun_err l2 m2 hw hkw (processMember_estab hp _ hkv)

/-- A successful alias pass never changes the binding of a key that is already
present (every alias insertion is guarded by a freshness check). -/
theorem processAliasList_pres {v : MemberDef} {k : String} :
    ∀ (as : List String) (m m' : Table),
    processAliasList v as m = (m', none) → hasKey m k →
    pyLookup m' k = pyLookup m k
  | [], m, m', h, _ => by
    simp only [processAliasList] at h
    obtain ⟨rfl, -⟩ := Prod.mk.injEq .. ▸ h
    rfl
  | a :: rest, m, m', h, hk => by
    simp only [processAliasList] at h
    by_cases h1 : normalizeStr a = normalizeStr v.name
    · rw [if_pos h1] at h
      exact processAliasList_pres rest m m' h hk
    · rw [if_neg h1] at h
      by_cases h2 : (pyLookup m (normalizeStr a)).isSome
      · rw [if_pos h2] at h
        exact absurd (congrArg Prod.snd h) (by simp)
      · rw [if_neg h2] at h
        have hne : k ≠ normalizeStr a := by
          intro heq
          exact h2 (heq ▸ hk)
        rw [processAliasList_pres rest _ m' h (hasKey_pyInsert _ _ hk),
            pyLookup_pyInsert_of_ne _ _ hne]

/-- A successful member pass preserves the binding of any present key other
than the member's (unchecked) composite value key. -/
theorem processMember_pres {v : MemberDef} {m m' : Table} {k : String}
    (h : processMember v m = (m', none)) (hk : hasKey m k)
    (hck : strStarts (memValue v) "alias:" = true → k ≠ normalizeStr (memValue v)) :
    pyLookup m' k = pyLookup m k := by
  unfold processMember at h
  by_cases h1 : (pyLookup m (normalizeStr v.name)).isSome
  · rw [if_pos h1] at h
    exact absurd (congrArg Prod.snd h) (by simp)
  · rw [if_neg h1] at h
    simp only at h
    have hkname : k ≠ normalizeStr v.name := fun heq => h1 (heq ▸ hk)
    by_cases h2 : strStarts (memValue v) "alias:"
    · rw [if_pos h2] at h
      rw [processAliasList_pres v.aliases _ m' h
            (hasKey_pyInsert _ _ (hasKey_pyInsert _ _ hk)),
          pyLookup_pyInsert_of_ne _ _ (hck h2),
          pyLookup_pyInsert_of_ne _ _ hkname]
    · rw [if_neg h2] at h
      obtain ⟨rfl, -⟩ := Prod.mk.injEq .. ▸ h
      exact pyLookup_pyInsert_of_ne _ _ hkname

/-- A successful build run preserves the binding of any present key that is
not the composite value key of some remaining member. -/
theorem buildRun_pres {k : String} :
    ∀ (defs : List MemberDef) (m m' : Table),
    buildRun defs m = (m', none) → hasKey m k →
    (∀ w ∈ defs, strStarts (memValue w) "alias:" = true →
      k ≠ normalizeStr (memValue w)) →
    pyLookup m' k = pyLookup m k
  | [], m, m', h, _, _ => by
    simp only [buildRun] at h
    obtain ⟨rfl, -⟩ := Prod.mk.injEq .. ▸ h
    rfl
  | v :: rest, m, m', h, hk, hck => by
    simp only [buildRun] at h
    rcases hp : processMember v m with ⟨m1, e1⟩
    rw [hp] at h
    match e1, h with
    | none, h =>
      have hpres := processMember_pres hp hk (hck v (List.mem_cons_self v rest))
      have hk1 : hasKey m1 k := by
        unfold hasKey
        rw [hpres]
        exact hk
      rw [buildRun_pres rest m1 m' h hk1
            (fun w hw => hck w (List.mem_cons_of_mem _ hw)), hpres]

/-- A successful alias pass maps every alias key to the member, given that the
member's name key already maps to it. -/
theorem processAliasList_estab_lookup {v : MemberDef} :
    ∀ (as : List String) (m m' : Table),
    processAliasList v as m = (m', none) →
    pyLookup m (nameKey v) = some v →
    ∀ a ∈ as, pyLookup m' (normalizeStr a) = some v
  | [], _, _, _, _, a, ha => absurd ha (List.not_mem_nil a)
  | a0 :: rest, m, m', h, hname, a, ha => by
    simp only [processAliasList] at h
    have hkname : hasKey m (nameKey v) := by
      unfold hasKey
      rw [hname]
      rfl
    by_cases h1 : normalizeStr a0 = normalizeStr v.name
    · rw [if_pos h1] at h
      rcases List.mem_cons.mp ha with rfl | ha'
      · rw [h1]
        show pyLookup m' (nameKey v) = some v
        rw [processAliasList_pres rest m m' h hkname, hname]
      · exact processAliasList_estab_lookup rest m m' h hname a ha'
    · rw [if_neg h1] at h
      by_cases h2 : (pyLookup m (normalizeStr a0)).isSome
      · rw [if_pos h2] at h
        exact absurd (congrArg Prod.snd h) (by simp)
      · rw [if_neg h2] at h
        have hne : nameKey v ≠ normalizeStr a0 := by
          intro heq
          exact h2 (heq ▸ hkname)
        rcases List.mem_cons.mp ha with rfl | ha'
        · rw [processAliasList_pres rest _ m' h (hasKey_pyInsert_self _ _ _),
              pyLookup_pyInsert]
          simp
        · refine processAliasList_estab_lookup rest _ m' h ?_ a ha'
          rw [pyLookup_pyInsert_of_ne _ _ hne]
          exact hname

/-- A successful member pass maps all the member's name/alias keys to the
member itself, provided its composite value key does not coincide with any of
them. -/
theorem processMember_estab_lookup {v : MemberDef} {m m' : Table}
    (h : processMember v m = (m', none))
    (hck : strStarts (memValue v) "alias:" = true →
      normalizeStr (memValue v) ∉ memberKeys v) :
    ∀ k ∈ memberKeys v, pyLookup m' k = some v := by
  intro k hk
  unfold processMember at h
  by_cases h1 : (pyLookup m (normalizeStr v.name)).isSome
  · rw [if_pos h1] at h
    exact absurd (congrArg Prod.snd h) (by simp)
  · rw [if_neg h1] at h
    simp only at h
    have hm1 : pyLookup (pyInsert m (normalizeStr v.name) v) (nameKey v) = some v := by
      unfold nameKey
      rw [pyLookup_pyInsert]
      simp
    by_cases h2 : strStarts (memValue v) "alias:"
    · rw [if_pos h2] at h
      have hckv := hck h2
      have hne : nameKey v ≠ normalizeStr (memValue v) := by
        intro heq
        exact hckv (heq ▸ List.mem_cons_self _ _)
      have hm2 : pyLookup (pyInsert (pyInsert m (normalizeStr v.name) v)
          (normalizeStr (memValue v)) v) (nameKey v) = some v := by
        rw [pyLookup_pyInsert_of_ne _ _ hne]
        exact hm1
      rcases List.mem_cons.mp hk with rfl | hk'
      · have hkey : hasKey (pyInsert (pyInsert m (normalizeStr v.name) v)
            (normalizeStr (memValue v)) v) (nameKey v) := by
          unfold hasKey
          rw [hm2]
          rfl
        rw [processAliasList_pres v.aliases _ m' h hkey, hm2]
      · obtain ⟨a, ha, rfl⟩ := List.mem_map.mp hk'
        exact processAliasList_estab_lookup v.aliases _ m' h hm2 a ha
    · rw [if_neg h2] at h
      obtain ⟨rfl, -⟩ := Prod.mk.injEq .. ▸ h
      rcases List.mem_cons.mp hk with rfl | hk'
      · exact hm1
      · obtain ⟨a, ha, rfl⟩ := List.mem_map.mp hk'
        have hne : ¬ v.aliases.isEmpty := by
          intro hemp
          rw [List.isEmpty_iff.mp hemp] at ha
          exact List.not_mem_nil a ha
        exact absurd (strStarts_alias v hne) h2

/-- On a successful build in which no member's composite value key collides
with any member's name/alias key, every name/alias key of every member maps to
its member in the final table. -/
theorem buildRun_lookup :
    ∀ (defs : List MemberDef) (m t : Table),
    buildRun defs m = (t, none) →
    (∀ u ∈ defs, ∀ w ∈ defs, strStarts (memValue u) "alias:" = true →
      normalizeStr (memValue u) ∉ memberKeys w) →
    ∀ v ∈ defs, ∀ k ∈ memberKeys v, pyLookup t k = some v
  | [], _, _, _, _, v, hv, _, _ => absurd hv (List.not_mem_nil v)
  | u0 :: rest, m, t, h, hsep, v, hv, k, hk => by
    simp only [buildRun] at h
    rcases hp : processMember u0 m with ⟨m1, e1⟩
    rw [hp] at h
    match e1, h with
    | none, h =>
      rcases List.mem_cons.mp hv with rfl | hv'
      · have hlook : pyLookup m1 k = some v :=
          processMember_estab_lookup hp
            (fun hs => hsep v (List.mem_cons_self v rest) v (List.mem_cons_self v rest) hs)
            k hk
        have hkey : hasKey m1 k := by
          unfold hasKey
          rw [hlook]
          rfl
        have hpres := buildRun_pres rest m1 t h hkey
          (fun w hw hs heq =>
            hsep w (List.mem_cons_of_mem _ hw) v (List.mem_cons_self v rest) hs (heq ▸ hk))
        rw [hpres, hlook]
      · exact buildRun_lookup rest m1 t h
          (fun u hu w hw => hsep u (List.mem_cons_of_mem _ hu) w (List.mem_cons_of_mem _ hw))
          v hv' k hk

/-- A build that returns `ok` ran `buildRun` from the empty table with no
error. -/
theorem buildOutcome_ok {defs : List MemberDef} {t : Table}
    (h : buildOutcome defs = Except.ok t) : buildRun defs [] = (t, none) := by
  unfold buildOutcome at h
  rcases hb : buildRun defs [] with ⟨t', e⟩
  rw [hb] at h
  match e, h with
  | none, h =>
    cases h
    rfl

/-- Strict resolution of a plain string is served by table lookup. -/
theorem fromStr_vstr_lookup (defs : List MemberDef) (t : Table) (s : String)
    {m0 : MemberDef} (hlook : pyLookup t (normalizeStr s) = some m0) :
    fromStr defs t (PyVal.vstr s) true = Except.ok (some m0) := by
  unfold fromStr
  simp only [instanceCheck]
  rw [if_neg (by simp), if_neg (by simp [pyIsStr])]
  simp only [pyToStr]
  rw [hlook]

/-- Claim C2: building the resolution table fails with a
`DefinitionCollisionError` whenever two keys from DISTINCT variants normalize
identically - two canonical names, a canonical name and another variant's
alias, or aliases of two different variants (`memberKeys` collects exactly a
variant's canonical-name key and alias keys).  The check is incremental - the
statement covers keys of variants arbitrarily far apart in declaration order,
including earlier variants' aliases, because each inserted name/alias key is
tested against everything inserted so far.  (The composite alias-list value
key of line 94 is NOT checked; that is claim C5's correction.) -/
theorem c2_collision_rejected (defs : List MemberDef) (v w : MemberDef) (k : String)
    (hv : v ∈ defs) (hw : w ∈ defs) (hvw : v ≠ w)
    (hkv : k ∈ memberKeys v) (hkw : k ∈ memberKeys w) :
    ∃ e, buildOutcome defs = Except.error e := by
  have main : (buildRun defs []).2.isSome = true := by
    obtain ⟨l1, l2, rfl⟩ := List.append_of_mem hv
    rcases List.mem_append.mp hw with hw1 | hw2
    · obtain ⟨p1, p2, rfl⟩ := List.append_of_mem hw1
      have hsplit : (p1 ++ w :: p2) ++ v :: l2 = p1 ++ w :: (p2 ++ v :: l2) := by
        simp
      rw [hsplit]
      exact collide_err_aux hkw hkv p1 (p2 ++ v :: l2) [] (by simp)
    · rcases List.mem_cons.mp hw2 with rfl | hw3
      · exact absurd rfl hvw
      · exact collide_err_aux hkv hkw l1 l2 [] hw3
  unfold buildOutcome
  rcases hb : buildRun defs [] with ⟨t, e⟩
  rw [hb] at main
  match e, main with
  | some e, _ => exact ⟨e, rfl⟩

/-- Claim C1, amended.  For every variant `v` of an enumeration type whose
table builds without a collision error AND in which no variant's normalized
composite alias-list value key coincides with any variant's normalized name or
alias key (the unchecked insertion at source line 94 makes this extra proviso
necessary - see `c1_counterexample`), strict resolution of `v.name` returns
`v`, and strict resolution of every declared alias of `v` returns `v`. -/
theorem c1_amended (defs : List MemberDef) (t : Table) (v : MemberDef)
    (hbuild : buildOutcome defs = Except.ok t)
    (hsep : ∀ u ∈ defs, ∀ w ∈ defs, strStarts (memValue u) "alias:" = true →
      normalizeStr (memValue u) ∉ memberKeys w)
    (hv : v ∈ defs) :
    fromStr defs t (PyVal.vstr v.name) true = Except.ok (some v)
    ∧ ∀ a ∈ v.aliases, fromStr defs t (PyVal.vstr a) true = Except.ok (some v) := by
  have hrun := buildOutcome_ok hbuild
  have hkeys := buildRun_lookup defs [] t hrun hsep v hv
  constructor
  · exact fromStr_vstr_lookup defs t v.name
      (hkeys (nameKey v) (List.mem_cons_self _ _))
  · intro a ha
    exact fromStr_vstr_lookup defs t a
      (hkeys (normalizeStr a) (List.mem_cons_of_mem _ (List.mem_map_of_mem normalizeStr ha)))

/-- Witness for C1 (amended) on the `colorDefs` class: the build succeeds, the
separation proviso holds, and both `"RED"` and its alias `"crimson"` resolve
strictly to the `RED` member. -/
theorem c1_amended_witness :
    buildOutcome colorDefs = Except.ok colorTable
    ∧ (∀ u ∈ colorDefs, ∀ w ∈ colorDefs, strStarts (memValue u) "alias:" = true →
        normalizeStr (memValue u) ∉ memberKeys w)
    ∧ (⟨"RED", ["crimson"]⟩ : MemberDef) ∈ colorDefs
    ∧ fromStr colorDefs colorTable (PyVal.vstr "RED") true
        = Except.ok (some ⟨"RED", ["crimson"]⟩)
    ∧ fromStr colorDefs colorTable (PyVal.vstr "crimson") true
        = Except.ok (some ⟨"RED", ["crimson"]⟩) :=
  have hb : buildOutcome colorDefs = Except.ok colorTable := rfl
  have hs : ∀ u ∈ colorDefs, ∀ w ∈ colorDefs, strStarts (memValue u) "alias:" = true →
      normalizeStr (memValue u) ∉ memberKeys w := by decide
  have hm : (⟨"RED", ["crimson"]⟩ : MemberDef) ∈ colorDefs := by decide
  have h := c1_amended colorDefs colorTable ⟨"RED", ["crimson"]⟩ hb hs hm
  ⟨hb, hs, hm, h.1, h.2 "crimson" (by decide)⟩

/-- Witness for C2: in the class `collideDefs` the two distinct members `A_B`
and `AB` share the normalized key `"ab"`, and the build indeed fails. -/
theorem c2_collision_rejected_witness :
    (⟨"A_B", []⟩ : MemberDef) ∈ collideDefs
    ∧ (⟨"AB", []⟩ : MemberDef) ∈ collideDefs
    ∧ (⟨"A_B", []⟩ : MemberDef) ≠ ⟨"AB", []⟩
    ∧ "ab" ∈ memberKeys ⟨"A_B", []⟩
    ∧ "ab" ∈ memberKeys ⟨"AB", []⟩
    ∧ ∃ e, buildOutcome collideDefs = Except.error e :=
  ⟨by decide, by decide, by decide, by decide, by decide,
   c2_collision_rejected collideDefs ⟨"A_B", []⟩ ⟨"AB", []⟩ "ab"
     (by decide) (by decide) (by decide) (by decide) (by decide)⟩

/-- Claim C1, counterexample.  The table of `exOverlapDefs` builds without any
collision error, `"alias:['x']"` is a declared alias of `exFirst`, yet strict
resolution of that alias returns `exSecond`: the unchecked composite-value
insertion of `exSecond` (source line 94) overwrote the alias entry.  So
`resolve(a, raise) is v` fails for a correctly-building enumeration. -/
theorem c1_counterexample :
    buildOutcome exOverlapDefs = Except.ok exOverlapTable
    ∧ "alias:['x']" ∈ exFirst.aliases
    ∧ fromStr exOverlapDefs exOverlapTable (PyVal.vstr "alias:['x']") true
        = Except.ok (some exSecond)
    ∧ exSecond ≠ exFirst := by
  refine ⟨rfl, by decide, rfl, by decide⟩

/-- Claim C5, counterexample.  When `exSecond` is processed, its normalized
composite alias-list key is already present in the table (it is `exFirst`'s
alias key), yet `processMember` raises no `DefinitionCollisionError`: the
composite key is inserted with no collision check, and the whole build
succeeds. -/
theorem c5_counterexample :
    (pyLookup exAfterFirst (normalizeStr (memValue exSecond))).isSome = true
    ∧ (processMember exSecond exAfterFirst).2 = none
    ∧ (buildOutcome exOverlapDefs).isOk = true := by
  refine ⟨by decide, rfl, rfl⟩

/-- Claim C5, amended: for EVERY variant `v` with a non-empty alias list and
EVERY table state `m` in which the composite insertion is reached (i.e. the
name check just passed), the normalized composite alias-list key is inserted
WITHOUT any collision check - the member pass performs the unconditional
assignment and goes straight into the alias loop, never raising at the
composite step, no matter what `m` holds at that key - and afterwards the
composite key maps to `v`, silently overwriting any existing entry. -/
theorem c5_amended (v : MemberDef) (m : Table)
    (hne : ¬ v.aliases.isEmpty)
    (hname : pyLookup m (normalizeStr v.name) = none) :
    processMember v m
      = processAliasList v v.aliases
          (pyInsert (pyInsert m (normalizeStr v.name) v) (normalizeStr (memValue v)) v)
    ∧ pyLookup (pyInsert (pyInsert m (normalizeStr v.name) v)
        (normalizeStr (memValue v)) v) (normalizeStr (memValue v)) = some v := by
  constructor
  · unfold processMember
    rw [if_neg (show ¬ (pyLookup m (normalizeStr v.name)).isSome = true from by
      rw [hname]
      simp)]
    show (if strStarts (memValue v) "alias:" = true then
        processAliasList v v.aliases
          (pyInsert (pyInsert m (normalizeStr v.name) v) (normalizeStr (memValue v)) v)
      else (pyInsert m (normalizeStr v.name) v, none)) = _
    rw [if_pos (strStarts_alias v hne)]
  · rw [pyLookup_pyInsert]
    simp

/-- Witness for C5 (amended) at the concrete overwrite scenario: when
`exSecond` is processed, its composite key is already bound to `exFirst`, the
hypotheses of `c5_amended` hold, the pass continues into the alias loop with
the composite key reassigned, and the key now maps to `exSecond`. -/
theorem c5_amended_witness :
    ¬ exSecond.aliases.isEmpty
    ∧ pyLookup exAfterFirst (normalizeStr exSecond.name) = none
    ∧ pyLookup exAfterFirst (normalizeStr (memValue exSecond)) = some exFirst
    ∧ processMember exSecond exAfterFirst
        = processAliasList exSecond exSecond.aliases
            (pyInsert (pyInsert exAfterFirst (normalizeStr exSecond.name) exSecond)
              (normalizeStr (memValue exSecond)) exSecond)
    ∧ pyLookup (pyInsert (pyInsert exAfterFirst (normalizeStr exSecond.name) exSecond)
          (normalizeStr (memValue exSecond)) exSecond) (normalizeStr (memValue exSecond))
        = some exSecond :=
  have h := c5_amended exSecond exAfterFirst (by decide) (by decide)
  ⟨by decide, by decide, by decide, h.1, h.2⟩

/-- Claim C3 (code bug).  After the build of `collideDefs` fails with the
collision error, the partially built table (holding `A_B` under key `"ab"`)
remains cached on the class, and a later strict resolution of `"AB"` is served
from that partial table, returning `A_B` with no error - the claim (and the
spec's propagation policy, "no partially usable type may exist") says every
later resolution attempt must fail. -/
theorem c3_partial_state :
    fromStrState collideDefs none (PyVal.vstr "A_B") true
      = (some [("ab", ⟨"A_B", []⟩)],
         Except.error (RunErr.buildFailed (BuildErr.collision "AB" "ab")))
    ∧ fromStrState collideDefs (some [("ab", ⟨"A_B", []⟩)]) (PyVal.vstr "AB") true
      = (some [("ab", ⟨"A_B", []⟩)], Except.ok (some ⟨"A_B", []⟩)) := by
  refine ⟨rfl, rfl⟩

/-- Claim C6, counterexample.  The non-string, non-null input `123` is not a
variant of `numDefs`, yet non-strict resolution returns the variant `NUM`
(whose alias is `'123'`) instead of the absent result: `from_str` coerces a
non-string input with `str()` and looks the result up. -/
theorem c6_counterexample :
    instanceCheck numDefs (PyVal.vint 123) = none
    ∧ buildOutcome numDefs = Except.ok numTable
    ∧ fromStr numDefs numTable (PyVal.vint 123) false
        = Except.ok (some ⟨"NUM", ["123"]⟩) := by
  refine ⟨rfl, rfl, rfl⟩

/-- Claim C7, counterexample.  For `s = "red"` on the `colorDefs` table,
`matches_any(s)` is true while `resolve(s, return-absent)` IS present, so
`matches_any(s)` is not equivalent to the resolution being absent - the claim
has the polarity backwards. -/
theorem c7_counterexample :
    ¬ (matchesAny colorDefs colorTable (PyVal.vstr "red") = true
        ↔ fromStrOpt colorDefs colorTable (PyVal.vstr "red") = none) := by
  decide

/-- Claim C8, counterexample.  Two distinct enumeration classes sharing the
class name `"Color"` (Python class names are not globally unique) have
same-named variants `RED` that compare unequal (identity) but hash over the
IDENTICAL string `"Color.RED"` - `__hash__` uses `__class__.__name__`, not the
class's identity - so the two variants do NOT hash to different values. -/
theorem c8_counterexample :
    clsA ≠ clsB
    ∧ hashKeyOf clsA "RED" = hashKeyOf clsB "RED"
    ∧ variantIs clsA "RED" clsB "RED" = false := by
  refine ⟨by decide, rfl, by decide⟩

/-- Claim C10: `convert_keys` can shrink a mapping.  On the two-key dict
`{'data_type': 1, 'DATA-TYPE': 2}` over the `DATA_TYPE` enumeration, both keys
resolve to the same variant, and the result is the single-entry dict mapping
the variant to `2` - the value of the later key in iteration order - with
strictly fewer entries than the input. -/
theorem c10_shrink :
    buildOutcome dataDefs = Except.ok dataTable
    ∧ fromStrOpt dataDefs dataTable (PyVal.vstr "data_type")
        = fromStrOpt dataDefs dataTable (PyVal.vstr "DATA-TYPE")
    ∧ fromStrOpt dataDefs dataTable (PyVal.vstr "data_type")
        = some ⟨"DATA_TYPE", []⟩
    ∧ convertKeys dataDefs dataTable c10Dict = [(PyKey.kmem ⟨"DATA_TYPE", []⟩, 2)]
    ∧ (convertKeys dataDefs dataTable c10Dict).length < c10Dict.length := by
  refine ⟨rfl, rfl, rfl, rfl, by decide⟩

/-- `from_str` with `raise_error=False` never raises: it returns exactly
`fromStrOpt`. -/
theorem fromStr_false_ok (defs : List MemberDef) (t : Table) (v : PyVal) :
    fromStr defs t v false = Except.ok (fromStrOpt defs t v) := by
  unfold fromStr fromStrOpt
  cases hi : instanceCheck defs v with
  | some m => simp only [hi]
  | none =>
    simp only [hi]
    by_cases h1 : v = PyVal.vnone
    · subst h1
      simp
    · rw [if_neg (fun hp => h1 hp.1), if_neg (fun hp => Bool.false_ne_true hp.2),
          if_neg h1]
      cases pyLookup t (normalizeStr (pyToStr v)) with
      | some m => rfl
      | none => simp

/-- Claim C6, amended.  Under the return-absent policy `from_str` never
raises, and the miss handling is: `None` yields absent, a variant of the type
resolves to itself, and EVERY other input - string or not - is coerced to its
string form by `str()`, normalized and looked up, yielding the matching
variant if its string form matches a key and absent only otherwise.  (So a
non-string input is NOT unconditionally mapped to absent; see
`c6_counterexample`.) -/
theorem c6_amended (defs : List MemberDef) (t : Table) (v : PyVal) :
    fromStr defs t v false = Except.ok (fromStrOpt defs t v)
    ∧ (instanceCheck defs v = none → v ≠ PyVal.vnone →
        fromStrOpt defs t v = pyLookup t (normalizeStr (pyToStr v))) := by
  refine ⟨fromStr_false_ok defs t v, fun hinst hnn => ?_⟩
  unfold fromStrOpt
  simp only [hinst]
  rw [if_neg hnn]

/-- Witness for C6 (amended) at the non-string input `123` on `numDefs`:
the hypotheses hold and the non-strict resolution equals the table lookup of
`normalize(str(123))`. -/
theorem c6_amended_witness :
    instanceCheck numDefs (PyVal.vint 123) = none
    ∧ PyVal.vint 123 ≠ PyVal.vnone
    ∧ fromStr numDefs numTable (PyVal.vint 123) false
        = Except.ok (fromStrOpt numDefs numTable (PyVal.vint 123))
    ∧ fromStrOpt numDefs numTable (PyVal.vint 123)
        = pyLookup numTable (normalizeStr (pyToStr (PyVal.vint 123))) :=
  have h := c6_amended numDefs numTable (PyVal.vint 123)
  ⟨by decide, by decide, h.1, h.2 (by decide) (by decide)⟩

/-- Claim C7, amended.  `matches_any(s)` is true exactly when
`resolve(s, return-absent)` IS present (the claim stated the inverse
polarity): `matches_any` is literally `from_str(s, raise_error=False) is not
None`. -/
theorem c7_amended (defs : List MemberDef) (t : Table) (v : PyVal) :
    matchesAny defs t v = (fromStrOpt defs t v).isSome := by
  unfold matchesAny
  rw [fromStr_false_ok]

/-- Splitting a character list at a separator absent from both left parts is
unambiguous. -/
theorem append_dot_inj :
    ∀ (a c b d : List Char), ('.' : Char) ∉ a → ('.' : Char) ∉ c →
    a ++ '.' :: b = c ++ '.' :: d → a = c ∧ b = d
  | [], [], b, d, _, _, h => by simpa using h
  | [], c0 :: c', b, d, _, hc, h => by
    simp only [List.nil_append, List.cons_append, List.cons.injEq] at h
    exact absurd (show ('.' : Char) ∈ c0 :: c' by
      rw [h.1]
      exact List.mem_cons_self _ _) hc
  | a0 :: a', [], b, d, ha, _, h => by
    simp only [List.nil_append, List.cons_append, List.cons.injEq] at h
    exact absurd (show ('.' : Char) ∈ a0 :: a' by
      rw [← h.1]
      exact List.mem_cons_self _ _) ha
  | a0 :: a', c0 :: c', b, d, ha, hc, h => by
    simp only [List.cons_append, List.cons.injEq] at h
    obtain ⟨rfl, h2⟩ := h
    have ih := append_dot_inj a' c' b d
      (fun hm => ha (List.mem_cons_of_mem _ hm))
      (fun hm => hc (List.mem_cons_of_mem _ hm)) h2
    exact ⟨by rw [ih.1], ih.2⟩

/-- The characters of the hashed string: class name, dot, member name. -/
theorem hashKey_data (c : EnumClassId) (n : String) :
    (hashKeyOf c n).data = c.className.data ++ '.' :: n.data := by
  unfold hashKeyOf
  rw [String.data_append, String.data_append]
  show (c.className.data ++ ['.']) ++ n.data = _
  rw [List.append_assoc]
  rfl

/-- Distinct (dot-free) class names give distinct hash-key strings. -/
theorem hashKey_inj {c1 c2 : EnumClassId} {n1 n2 : String}
    (h1 : ('.' : Char) ∉ c1.className.data) (h2 : ('.' : Char) ∉ c2.className.data)
    (hne : c1.className ≠ c2.className) :
    hashKeyOf c1 n1 ≠ hashKeyOf c2 n2 := by
  intro heq
  apply hne
  have hdata := congrArg String.data heq
  rw [hashKey_data, hashKey_data] at hdata
  have hsplit := append_dot_inj _ _ _ _ h1 h2 hdata
  exact String.ext hsplit.1

/-- Claim C8, amended.  Two variants belonging to two DIFFERENT enumeration
types always compare unequal (equality is identity), and they hash
differently whenever the owning classes' NAMES differ: the hash is derived
from `__class__.__name__` combined with the variant's `name` (joined by a
dot, and Python identifiers contain no dot) - not from the class's identity,
so two same-named classes yield equal hashes for same-named variants
(see `c8_counterexample`). -/
theorem c8_amended (c1 c2 : EnumClassId) (n1 n2 : String)
    (hdot1 : ('.' : Char) ∉ c1.className.data)
    (hdot2 : ('.' : Char) ∉ c2.className.data)
    (hne : c1 ≠ c2) :
    variantIs c1 n1 c2 n2 = false
    ∧ (c1.className ≠ c2.className → hashKeyOf c1 n1 ≠ hashKeyOf c2 n2) := by
  constructor
  · unfold variantIs
    exact decide_eq_false (fun hp => hne hp.1)
  · intro hcn
    exact hashKey_inj hdot1 hdot2 hcn

/-- Witness for C8 (amended): the classes `Color` (id 0) and `Size` (id 2)
have dot-free, distinct names; their `RED` variants compare unequal and have
distinct hash keys. -/
theorem c8_amended_witness :
    ('.' : Char) ∉ ("Color" : String).data
    ∧ ('.' : Char) ∉ ("Size" : String).data
    ∧ variantIs ⟨0, "Color"⟩ "RED" ⟨2, "Size"⟩ "RED" = false
    ∧ hashKeyOf ⟨0, "Color"⟩ "RED" ≠ hashKeyOf ⟨2, "Size"⟩ "RED" :=
  have h := c8_amended ⟨0, "Color"⟩ ⟨2, "Size"⟩ "RED" "RED"
    (by decide) (by decide) (by decide)
  ⟨by decide, by decide, h.1, h.2 (by decide)⟩

/-! Round-trip (C9) support: values stored in the table are members of the
class, dict folds over fresh keys are maps, and key conversion followed by
string conversion is the identity under the round-trip proviso. -/

theorem pyInsert_vals [DecidableEq K] :
    ∀ (m : List (K × V)) (k : K) (v : V) (p : K × V),
    p ∈ pyInsert m k v → p.2 = v ∨ p ∈ m
  | [], k, v, p, hp => by
    simp only [pyInsert, List.mem_singleton] at hp
    exact Or.inl (by rw [hp])
  | (k0, v0) :: rest, k, v, p, hp => by
    simp only [pyInsert] at hp
    by_cases h1 : k = k0
    · rw [if_pos h1] at hp
      rcases List.mem_cons.mp hp with rfl | hp'
      · exact Or.inl rfl
      · exact Or.inr (List.mem_cons_of_mem _ hp')
    · rw [if_neg h1] at hp
      rcases List.mem_cons.mp hp with rfl | hp'
      · exact Or.inr (List.mem_cons_self _ _)
      · rcases pyInsert_vals rest k v p hp' with h | h
        · exact Or.inl h
        · exact Or.inr (List.mem_cons_of_mem _ h)

theorem pyLookup_mem [DecidableEq K] :
    ∀ (m : List (K × V)) (k : K) (v : V), pyLookup m k = some v → ∃ k', (k', v) ∈ m
  | [], _, _, h => by cases h
  | (k0, v0) :: rest, k, v, h => by
    simp only [pyLookup] at h
    by_cases h1 : k = k0
    · rw [if_pos h1] at h
      injection h with h
      subst h
      exact ⟨k0, List.mem_cons_self _ _⟩
    · rw [if_neg h1] at h
      obtain ⟨k', hk'⟩ := pyLookup_mem rest k v h
      exact ⟨k', List.mem_cons_of_mem _ hk'⟩

theorem processAliasList_vals {v : MemberDef} :
    ∀ (as : List String) (m m' : Table) (e : Option BuildErr),
    processAliasList v as m = (m', e) → ∀ p ∈ m', p.2 = v ∨ p ∈ m
  | [], m, m', e, h, p, hp => by
    simp only [processAliasList] at h
    obtain ⟨rfl, rfl⟩ := Prod.mk.injEq .. ▸ h
    exact Or.inr hp
  | a :: rest, m, m', e, h, p, hp => by
    simp only [processAliasList] at h
    by_cases h1 : normalizeStr a = normalizeStr v.name
    · rw [if_pos h1] at h
      exact processAliasList_vals rest m m' e h p hp
    · rw [if_neg h1] at h
      by_cases h2 : (pyLookup m (normalizeStr a)).isSome
      · rw [if_pos h2] at h
        obtain ⟨rfl, rfl⟩ := Prod.mk.injEq .. ▸ h
        exact Or.inr hp
      · rw [if_neg h2] at h
        rcases processAliasList_vals rest _ m' e h p hp with hv | hp'
        · exact Or.inl hv
        · rcases pyInsert_vals m _ v p hp' with hv | hp''
          · exact Or.inl hv
          · exact Or.inr hp''

theorem processMember_vals {v : MemberDef} {m m' : Table} {e : Option BuildErr}
    (h : processMember v m = (m', e)) : ∀ p ∈ m', p.2 = v ∨ p ∈ m := by
  intro p hp
  unfold processMember at h
  by_cases h1 : (pyLookup m (normalizeStr v.name)).isSome
  · rw [if_pos h1] at h
    obtain ⟨rfl, rfl⟩ := Prod.mk.injEq .. ▸ h
    exact Or.inr hp
  · rw [if_neg h1] at h
    simp only at h
    by_cases h2 : strStarts (memValue v) "alias:"
    · rw [if_pos h2] at h
      rcases processAliasList_vals v.aliases _ m' e h p hp with hv | hp'
      · exact Or.inl hv
      · rcases pyInsert_vals _ _ v p hp' with hv | hp''
        · exact Or.inl hv
        · rcases pyInsert_vals m _ v p hp'' with hv | hp3
          · exact Or.inl hv
          · exact Or.inr hp3
    · rw [if_neg h2] at h
      obtain ⟨rfl, rfl⟩ := Prod.mk.injEq .. ▸ h
      rcases pyInsert_vals m _ v p hp with hv | hp'
      · exact Or.inl hv
      · exact Or.inr hp'

theorem buildRun_vals :
    ∀ (defs : List MemberDef) (m t : Table) (e : Option BuildErr),
    buildRun defs m = (t, e) → ∀ p ∈ t, p.2 ∈ defs ∨ p ∈ m
  | [], m, t, e, h, p, hp => by
    simp only [buildRun] at h
    obtain ⟨rfl, rfl⟩ := Prod.mk.injEq .. ▸ h
    exact Or.inr hp
  | v :: rest, m, t, e, h, p, hp => by
    simp only [buildRun] at h
    rcases hp1 : processMember v m with ⟨m1, e1⟩
    rw [hp1] at h
    match e1, h with
    | none, h =>
      rcases buildRun_vals rest m1 t e h p hp with hd | hm1
      · exact Or.inl (List.mem_cons_of_mem _ hd)
      · rcases processMember_vals hp1 p hm1 with hv | hm
        · exact Or.inl (hv ▸ List.mem_cons_self _ _)
        · exact Or.inr hm
    | some e1, h =>
      obtain ⟨rfl, rfl⟩ := Prod.mk.injEq .. ▸ h
      rcases processMember_vals hp1 p hp with hv | hm
      · exact Or.inl (hv ▸ List.mem_cons_self _ _)
      · exact Or.inr hm

/-- Every member stored in a successfully built table belongs to the class. -/
theorem buildOutcome_vals {defs : List MemberDef} {t : Table}
    (h : buildOutcome defs = Except.ok t) : ∀ p ∈ t, p.2 ∈ defs := by
  intro p hp
  rcases buildRun_vals defs [] t none (buildOutcome_ok h) p hp with hd | hm
  · exact hd
  · exact absurd hm (List.not_mem_nil p)

theorem instanceCheck_mem {defs : List MemberDef} {v : PyVal} {m : MemberDef}
    (h : instanceCheck defs v = some m) : m ∈ defs := by
  cases v with
  | vmem m' =>
    simp only [instanceCheck] at h
    by_cases hm : m' ∈ defs
    · rw [if_pos hm] at h
      injection h with h
      subst h
      exact hm
    · rw [if_neg hm] at h
      cases h
  | vstr s =>
    simp only [instanceCheck] at h
    cases h
  | vnone =>
    simp only [instanceCheck] at h
    cases h
  | vint n =>
    simp only [instanceCheck] at h
    cases h

/-- Any member returned by non-strict resolution over a successfully built
table is a member of the class. -/
theorem fromStrOpt_mem {defs : List MemberDef} {t : Table} {v : PyVal} {m0 : MemberDef}
    (hb : buildOutcome defs = Except.ok t) (h : fromStrOpt defs t v = some m0) :
    m0 ∈ defs := by
  unfold fromStrOpt at h
  cases hi : instanceCheck defs v with
  | some m =>
    rw [hi] at h
    injection h with h
    subst h
    exact instanceCheck_mem hi
  | none =>
    rw [hi] at h
    by_cases h1 : v = PyVal.vnone
    · rw [if_pos h1] at h
      cases h
    · rw [if_neg h1] at h
      obtain ⟨k', hk'⟩ := pyLookup_mem t _ m0 h
      exact buildOutcome_vals hb _ hk'

/-- A dict built by folding `pyInsert` over pairwise-fresh keys is the image
of the input list. -/
theorem foldl_pyInsert_map [DecidableEq K] (f : K → K) :
    ∀ (d acc : List (K × V)),
    (∀ kv ∈ d, pyLookup acc (f kv.1) = none) →
    (d.map (fun kv => f kv.1)).Nodup →
    d.foldl (fun out kv => pyInsert out (f kv.1) kv.2) acc
      = acc ++ d.map (fun kv => (f kv.1, kv.2))
  | [], acc, _, _ => by simp
  | kv0 :: d, acc, hfresh, hnd => by
    simp only [List.foldl_cons, List.map_cons]
    rw [pyInsert_of_none acc _ kv0.2 (hfresh kv0 (List.mem_cons_self _ _))]
    have hpair := List.nodup_cons.mp hnd
    rw [foldl_pyInsert_map f d (acc ++ [(f kv0.1, kv0.2)])
        (fun kv hkv => by
          rw [pyLookup_append_none acc _ _ (hfresh kv (List.mem_cons_of_mem _ hkv))]
          simp only [pyLookup]
          rw [if_neg (fun (heq : f kv.1 = f kv0.1) => hpair.1 (by
            show f kv0.1 ∈ d.map (fun kv => f kv.1)
            rw [← heq]
            exact List.mem_map_of_mem (fun kv => f kv.1) hkv))])
        hpair.2]
    simp

theorem convertKeys_eq_map (defs : List MemberDef) (t : Table) (d : List (PyKey × V))
    (hnd : (d.map (fun kv => keyConv defs t kv.1)).Nodup) :
    convertKeys defs t d = d.map (fun kv => (keyConv defs t kv.1, kv.2)) := by
  unfold convertKeys
  rw [foldl_pyInsert_map (keyConv defs t) d [] (fun kv _ => rfl) hnd]
  simp

theorem convertKeysToStr_eq_map (defs : List MemberDef) (d : List (PyKey × V))
    (hnd : (d.map (fun kv => keyToStrConv defs kv.1)).Nodup) :
    convertKeysToStr defs d = d.map (fun kv => (keyToStrConv defs kv.1, kv.2)) := by
  unfold convertKeysToStr
  rw [foldl_pyInsert_map (keyToStrConv defs) d [] (fun kv _ => rfl) hnd]
  simp

/-- A member of the class is resolved to itself by the identity
short-circuit. -/
theorem fromStrOpt_vmem_self {defs : List MemberDef} {t : Table} {m : MemberDef}
    (hmem : m ∈ defs) : fromStrOpt defs t (PyVal.vmem m) = some m := by
  unfold fromStrOpt
  have hi : instanceCheck defs (PyVal.vmem m) = some m := by
    simp only [instanceCheck]
    rw [if_pos hmem]
  rw [hi]

/-- Under the round-trip proviso - a key that resolves is the canonical-name
string of the variant it resolves to - converting a key and converting it back
is the identity. -/
theorem keyRound {defs : List MemberDef} {t : Table}
    (hb : buildOutcome defs = Except.ok t) {k : PyKey}
    (hP : ∀ m, pyIsStr (keyToVal k) = true → fromStrOpt defs t (keyToVal k) = some m →
      k = PyKey.kstr m.name) :
    keyToStrConv defs (keyConv defs t k) = k := by
  unfold keyConv
  cases k with
  | kstr s =>
    rw [if_pos (show pyIsStr (keyToVal (PyKey.kstr s)) = true from rfl)]
    cases hf : fromStrOpt defs t (keyToVal (PyKey.kstr s)) with
    | none => rfl
    | some m =>
      have hk := hP m rfl hf
      have hmem : m ∈ defs := fromStrOpt_mem hb hf
      show (if m ∈ defs then PyKey.kstr m.name else PyKey.kmem m) = PyKey.kstr s
      rw [if_pos hmem]
      exact hk.symm
  | kmem m =>
    rw [if_pos (show pyIsStr (keyToVal (PyKey.kmem m)) = true from rfl)]
    cases hf : fromStrOpt defs t (keyToVal (PyKey.kmem m)) with
    | none =>
      show (if m ∈ defs then PyKey.kstr m.name else PyKey.kmem m) = PyKey.kmem m
      rw [if_neg (fun hmem => by
        simp only [keyToVal] at hf
        rw [fromStrOpt_vmem_self hmem] at hf
        cases hf)]
    | some m0 => exact absurd (hP m0 rfl hf) (by simp)
  | kint n =>
    rw [if_neg (show ¬ pyIsStr (keyToVal (PyKey.kint n)) = true from by
      simp [keyToVal, pyIsStr])]
    rfl

/-- Claim C9: for every mapping whose keys are pairwise distinct and in which
every original key that matched a variant had a unique string form - read as:
each such key IS the (unique, §4.3) string form of the variant it matched,
i.e. the variant's canonical name - applying `convert_keys` and then
`convert_keys_to_str` restores the original mapping. -/
theorem c9_roundtrip (defs : List MemberDef) (t : Table) {V : Type} (d : List (PyKey × V))
    (hbuild : buildOutcome defs = Except.ok t)
    (hnd : (d.map Prod.fst).Nodup)
    (hP : ∀ kv ∈ d, ∀ m, pyIsStr (keyToVal kv.1) = true →
      fromStrOpt defs t (keyToVal kv.1) = some m → kv.1 = PyKey.kstr m.name) :
    convertKeysToStr defs (convertKeys defs t d) = d := by
  have hround : ∀ kv ∈ d, keyToStrConv defs (keyConv defs t kv.1) = kv.1 :=
    fun kv hkv => keyRound hbuild (fun m hs hf => hP kv hkv m hs hf)
  have hnd1 : (d.map (fun kv => keyConv defs t kv.1)).Nodup := by
    have hmm : d.map (fun kv => keyConv defs t kv.1)
        = (d.map Prod.fst).map (keyConv defs t) := by
      rw [List.map_map]
      rfl
    rw [hmm]
    refine List.Nodup.map_on ?_ hnd
    intro x hx y hy hxy
    obtain ⟨kvx, hkvx, rfl⟩ := List.mem_map.mp hx
    obtain ⟨kvy, hkvy, rfl⟩ := List.mem_map.mp hy
    have hc := congrArg (keyToStrConv defs) hxy
    rw [hround kvx hkvx, hround kvy hkvy] at hc
    exact hc
  rw [convertKeys_eq_map defs t d hnd1]
  have hnd2 : ((d.map (fun kv => (keyConv defs t kv.1, kv.2))).map
      (fun kv => keyToStrConv defs kv.1)).Nodup := by
    rw [List.map_map]
    have hmm : d.map ((fun kv : PyKey × V => keyToStrConv defs kv.1)
        ∘ fun kv : PyKey × V => (keyConv defs t kv.1, kv.2)) = d.map Prod.fst := by
      refine List.map_congr_left ?_
      intro kv hkv
      exact hround kv hkv
    rw [hmm]
    exact hnd
  rw [convertKeysToStr_eq_map defs _ hnd2, List.map_map]
  have hid : d.map ((fun kv : PyKey × V => (keyToStrConv defs kv.1, kv.2))
      ∘ fun kv : PyKey × V => (keyConv defs t kv.1, kv.2)) = d.map id := by
    refine List.map_congr_left ?_
    intro kv hkv
    show (keyToStrConv defs (keyConv defs t kv.1), kv.2) = kv
    rw [hround kv hkv]
  rw [hid, List.map_id]

/-- Witness for C9 on `dataDefs` and the dict
`{'DATA_TYPE': 1, 7: 2}`: the keys are distinct, the only matching key is the
canonical name `DATA_TYPE`, and the double conversion restores the dict. -/
theorem c9_roundtrip_witness :
    buildOutcome dataDefs = Except.ok dataTable
    ∧ (c9Dict.map Prod.fst).Nodup
    ∧ convertKeysToStr dataDefs (convertKeys dataDefs dataTable c9Dict) = c9Dict := by
  refine ⟨rfl, by decide, ?_⟩
  refine c9_roundtrip dataDefs dataTable c9Dict rfl (by decide) ?_
  intro kv hkv m hs hf
  rcases List.mem_cons.mp hkv with rfl | hkv'
  · have hval : fromStrOpt dataDefs dataTable (keyToVal (PyKey.kstr "DATA_TYPE"))
        = some ⟨"DATA_TYPE", []⟩ := rfl
    rw [hval] at hf
    injection hf with hf
    subst hf
    rfl
  · rcases List.mem_cons.mp hkv' with rfl | hkv''
    · exact absurd hs (by decide)
    · exact absurd hkv'' (List.not_mem_nil _)

end AutoEnumPy
